import Mathlib

/-!
Verification of the wvtest-stream harness (wvtest.c) against its
natural-language specification.  The C source is shallowly embedded:
machine integers become `Nat`/`Int` with explicit reduction modulo `2 ^ w`
where wraparound matters, the C `double` values produced and consumed by
the pseudorandom generator and the fault injector are modelled exactly in
`ℚ` (every value involved is exactly representable as a dyadic rational,
so the real computations incur no rounding), and the global PRNG seed is
threaded explicitly through every function that draws randomness.
-/

/-! ### Pseudorandom source (frandom / frandom_get_seed / frandom_set_seed)

The C generator keeps a global `uint64_t random_seed` and on each call
performs three rounds of `seed = ((seed << 4) - seed) ^ 1`, returning
`(seed >> 32) / 4294967296.0`.  The subtraction wraps modulo `2 ^ 64`;
we add `2 ^ 64` before the truncated `Nat` subtraction to realise the
two's-complement wraparound. -/

def seedStep (s : Nat) : Nat :=
  ((((s <<< 4) + 18446744073709551616) - s) % 18446744073709551616) ^^^ 1

def frandom_seed (s : Nat) : Nat := seedStep (seedStep (seedStep s))

def frandom_val (s : Nat) : ℚ := ((frandom_seed s >>> 32 : Nat) : ℚ) / 4294967296

lemma seedStep_lt (s : Nat) : seedStep s < 18446744073709551616 := by
  unfold seedStep
  have h1 : (((s <<< 4) + 18446744073709551616) - s) % 18446744073709551616 <
      18446744073709551616 := Nat.mod_lt _ (by norm_num)
  have h2 : (1 : Nat) < 18446744073709551616 := by norm_num
  calc ((((s <<< 4) + 18446744073709551616) - s) % 18446744073709551616) ^^^ 1
      < 2 ^ 64 := Nat.xor_lt_two_pow (by exact_mod_cast h1) (by norm_num)
    _ = 18446744073709551616 := by norm_num

lemma frandom_seed_lt (s : Nat) : frandom_seed s < 18446744073709551616 :=
  seedStep_lt _

lemma frandom_val_nonneg (s : Nat) : 0 ≤ frandom_val s := by
  unfold frandom_val
  positivity

lemma frandom_val_lt_one (s : Nat) : frandom_val s < 1 := by
  unfold frandom_val
  rw [div_lt_one (by norm_num)]
  have h : frandom_seed s >>> 32 < 4294967296 := by
    have hlt := frandom_seed_lt s
    have : frandom_seed s >>> 32 = frandom_seed s / 2 ^ 32 := Nat.shiftRight_eq_div_pow _ _
    rw [this]
    omega
  exact_mod_cast h

/-! ### Fault injector (hit_probability / fuzz_buffer)

`hit_probability period length num_hits` is the negative-binomial-derived
probability used by `fuzz_buffer`: a power of `(period-1)/period` times a
product of `(length - hits) / (period * (hits + 1))` factors. -/

def hit_probability (period length num_hits : Nat) : ℚ :=
  (((period : ℚ) - 1) / period) ^ ((length : ℤ) - num_hits) *
    (Finset.range num_hits).prod
      (fun hits => ((length : ℚ) - hits) / ((period : ℚ) * ((hits : ℚ) + 1)))

/-- Running sum `P(hits = 0) + ... + P(hits = k - 1)` accumulated by the
`fuzz_buffer` stopping loop. -/
def hit_prob_sum (period length k : Nat) : ℚ :=
  (Finset.range k).sum (fun i => hit_probability period length i)

/-- The hit-count stopping loop of `fuzz_buffer`: keep accumulating
`hit_probability` values while the accumulator is below the drawn uniform
variable `u`, incrementing the hit count, and break out early when the
count reaches `(length + 1) / 2`.  The fuel argument only bounds the
recursion; `(length + 1) / 2 + 1` iterations always suffice because the
count grows by one per iteration and is capped at `(length + 1) / 2`. -/
def fuzz_hits_aux (period length : Nat) (u : ℚ) : Nat → ℚ → Nat → Nat
  | 0, _, k => k
  | fuel + 1, accum, k =>
    if accum + hit_probability period length k < u then
      (if k + 1 = (length + 1) / 2 then k + 1
       else fuzz_hits_aux period length u fuel (accum + hit_probability period length k) (k + 1))
    else k

def fuzz_num_hits (period length : Nat) (u : ℚ) : Nat :=
  fuzz_hits_aux period length u ((length + 1) / 2 + 1) 0 0

/-- Bit position drawn by the XOR loop: `(int) floor (frandom () * 8)`. -/
def toggle_bit (s : Nat) : Nat := (Int.floor (frandom_val s * 8)).toNat

lemma xor_shift_ne (v b : Nat) : v ^^^ (1 <<< b) ≠ v := by
  intro h
  have h1 : v ^^^ (v ^^^ (1 <<< b)) = v ^^^ v := congrArg (fun x => v ^^^ x) h
  rw [← Nat.xor_assoc, Nat.xor_self, Nat.zero_xor] at h1
  rw [Nat.one_shiftLeft] at h1
  have h2 : 0 < 2 ^ b := pow_pos (by norm_num) b
  omega

/-- The XOR bit-toggle loop applied to one selected byte
(`while (delta_bits-- > 0 || data_ptr[index] == initial_value) ...`):
toggle a randomly chosen bit while toggles remain, and keep toggling
while the value has landed back on its initial value.  Returns the
updated seed and the final byte value.  Termination: each iteration of
the first branch consumes one of `delta_bits`; once they are exhausted
the loop can only continue while the value equals `initial`, and a
single-bit XOR always changes the value, so at most one further
iteration runs. -/
def fuzz_toggle_loop (s : Nat) (delta_bits : Nat) (initial v : Nat) : Nat × Nat :=
  if h1 : 0 < delta_bits then
    fuzz_toggle_loop (frandom_seed s) (delta_bits - 1) initial (v ^^^ (1 <<< toggle_bit s))
  else if h2 : v = initial then
    fuzz_toggle_loop (frandom_seed s) 0 initial (v ^^^ (1 <<< toggle_bit s))
  else (s, v)
termination_by (delta_bits, if v = initial then 1 else 0)
decreasing_by
  · exact Prod.Lex.left _ _ (by omega)
  · have hd : delta_bits = 0 := by omega
    subst hd
    have hne : v ^^^ (1 <<< toggle_bit s) ≠ initial := by
      intro hcontra
      exact xor_shift_ne v (toggle_bit s) (by rw [hcontra, h2])
    rw [if_neg hne, if_pos h2]
    exact Prod.Lex.right 0 Nat.zero_lt_one

/-- Byte index drawn for one corruption hit:
`index = floor (frandom () * length); if (index == length) index--;`. -/
def fuzz_index (s length : Nat) : Nat :=
  let index := (Int.floor (frandom_val s * length)).toNat
  if index = length then index - 1 else index

/-- Number of bits to toggle for one hit: `ceil (frandom () * 8)`. -/
def fuzz_delta_bits (s : Nat) : Nat := (Int.ceil (frandom_val s * 8)).toNat

/-- The per-hit corruption loop of `fuzz_buffer` (`while (num_hits--) ...`):
draw an index and a bit count, then run the XOR toggle loop on the byte at
that index. -/
def fuzz_hits_loop (s : Nat) (data : List Nat) (length : Nat) : Nat → Nat × List Nat
  | 0 => (s, data)
  | n + 1 =>
    let s1 := frandom_seed s
    let index := fuzz_index s length
    let s2 := frandom_seed s1
    let delta_bits := fuzz_delta_bits s1
    let initial := data.getD index 0
    let r := fuzz_toggle_loop s2 delta_bits initial initial
    fuzz_hits_loop r.1 (data.set index r.2) length n

/-- `fuzz_buffer (data, length, fuzz_period)`: save the PRNG seed, draw the
uniform stopping variable, run the hit loop, then restore the saved seed.
Returns the final global seed together with the corrupted buffer. -/
def fuzz_buffer (s : Nat) (data : List Nat) (length fuzz_period : Nat) : Nat × List Nat :=
  let saved_seed := s
  let s1 := frandom_seed s
  let fuzz_factor := frandom_val s
  let num_hits := fuzz_num_hits fuzz_period length fuzz_factor
  let r := fuzz_hits_loop s1 data length num_hits
  (saved_seed, r.2)

/-! ### Streaming channel (StreamingFile): call-level sequential model

The relevant mutable fields of the C `StreamingFile` structure.  The ring
buffer's raw head/tail pointer arithmetic is modelled by the list of bytes
currently held between `buffer_tail` and `buffer_head`; the cursor
arithmetic is modulo the capacity and the producer blocks whenever fewer
than `length` bytes of space remain (the buffer is never filled beyond
`buffer_size - 1` bytes, since `head == tail` means empty).  `push_back`
is an `int` whose value `0` means "no byte pending".  The backing capture
file is not modelled (storage side effects are out of this model). -/

structure SF where
  buffer_size : Nat
  bytes_written : Nat
  bytes_read : Nat
  first_block_size : Nat
  ring : List Nat
  push_back : Nat
  done : Bool
  fuzz_period : Nat
deriving DecidableEq, Repr

/-- `initialize_stream (ws, buffer_size, fuzz_period)` applied to a
zero-cleared structure: with a nonzero capacity the buffer is allocated
and the fuzz period recorded; with capacity zero nothing is set and every
field keeps its cleared value (in particular the fuzz period stays 0). -/
def initialize_stream (buffer_size fuzz_period : Nat) : SF :=
  if buffer_size ≠ 0 then
    ⟨buffer_size, 0, 0, 0, [], 0, false, fuzz_period⟩
  else
    ⟨0, 0, 0, 0, [], 0, false, 0⟩

/-- `flush_stream`: sets the end-of-input flag and wakes the reader, but
only when a ring buffer was actually allocated (`if (ws->buffer_base)`);
on a zero-capacity channel it does nothing. -/
def flush_stream (ws : SF) : SF :=
  if ws.buffer_size ≠ 0 then { ws with done := true } else ws

/-- `write_block (id, data, length)` in the single-threaded (no concurrent
reader) setting; `s` is the global PRNG seed at call time (the fuzz pass
restores it, so the seed after the call equals `s`).  Returns `none` when
the call would block forever waiting on `cond_read` (the data does not fit
in the remaining ring space and no reader is running), otherwise the
updated channel and the C return status. -/
def write_block_nb (s : Nat) (ws : SF) (data : List Nat) : Option (SF × Int) :=
  if data = [] then some (ws, 0)
  else
    let data' := if ws.fuzz_period ≠ 0 then
        (fuzz_buffer s data data.length ws.fuzz_period).2
      else data
    let ws1 : SF :=
      { ws with
          first_block_size :=
            if ws.first_block_size = 0 then data.length else ws.first_block_size
          bytes_written := ws.bytes_written + data.length }
    if ws1.buffer_size = 0 then some (ws1, 1)
    else if ws1.ring.length + data'.length + 1 ≤ ws1.buffer_size then
      some ({ ws1 with ring := ws1.ring ++ data' }, 1)
    else none

/-- `read_bytes (id, data, bcount)` in the single-threaded setting: drain
the pending pushed-back byte first, then available ring bytes; if the
request is still unsatisfied, return short when `done` is set, otherwise
the call would block on `cond_write` (`none`).  Returns the bytes
delivered and the updated channel. -/
def read_bytes_nb (ws : SF) (bcount : Nat) : Option (List Nat × SF) :=
  if bcount = 0 then some ([], ws)
  else
    let pbBytes := if ws.push_back ≠ 0 then [ws.push_back] else []
    let need := bcount - pbBytes.length
    let ringTake := min need ws.ring.length
    let bytes := pbBytes ++ ws.ring.take ringTake
    let ws' : SF :=
      { ws with
          push_back := 0
          ring := ws.ring.drop ringTake
          bytes_read := ws.bytes_read + ringTake }
    if bytes.length = bcount ∨ ws.done then some (bytes, ws') else none

/-- `push_back_byte (id, c)`: store `c` when no pushback is pending and
return it, otherwise return `EOF` (-1) and leave the pending byte alone.
Since the emptiness test is `if (!ws->push_back)`, storing the byte `0`
leaves the slot logically empty. -/
def push_back_byte_nb (ws : SF) (c : Nat) : SF × Int :=
  if ws.push_back = 0 then ({ ws with push_back := c }, (c : Int))
  else (ws, -1)

/-! ### Round-trip orchestrator: the VERIFY decision of run_test

`run_test` compares the decoder-reported error count, the decoded sample
count against the encoded sample count and (in lossless configurations)
the two MD5 hashes; on any mismatch it prints diagnostics and returns
`fuzz_period ? 0 : wv_decoder.num_errors + 1`, and otherwise returns 0.
`md5_mismatch` models `memcmp (md5_encoded, md5_decoded, 16) != 0`. -/

def verify_status (fuzz_period num_errors sample_count total_encoded_samples : Nat)
    (lossless md5_mismatch : Bool) : Nat :=
  if num_errors ≠ 0 ∨ sample_count ≠ total_encoded_samples ∨
      (lossless = true ∧ md5_mismatch = true) then
    (if fuzz_period ≠ 0 then 0 else num_errors + 1)
  else 0

/-! ### Sample codec adapter: 32-bit float-as-integer quantizer

`float_to_32bit_integer_samples` clamps each normalized sample into an
`int` (`imin = 0x8000000`, `imax = 0x7fffffff` — the constants exactly as
they appear in the source), quantizes interior values with
`floor (sample * 2147483648.0)`, and back-fills trailing zero bits of a
nonzero even result with random bits.  The `int` value is modelled by its
32-bit two's-complement pattern (a `Nat` below `2 ^ 32`); `asr32` is the
arithmetic right shift `isample >>= 1` performed on that pattern. -/

def int32_pattern (x : Int) : Nat := (x % 4294967296).toNat

def int32_of_pattern (p : Nat) : Int :=
  if p < 2147483648 then (p : Int) else (p : Int) - 4294967296

def asr32 (p : Nat) : Nat :=
  if 2147483648 ≤ p then p / 2 + 2147483648 else p / 2

/-- The trailing-zero counting loop
(`int tzeros = 1; while (!((isample >>= 1) & 1)) tzeros++;`), returning
the final count together with the shifted-down pattern.  The fuel bounds
the recursion: 32 iterations always suffice for a nonzero 32-bit pattern,
because the value has a one bit in the low 32 positions and arithmetic
shifting brings it to position 0 in at most 31 steps. -/
def strip_tzeros : Nat → Nat → Nat × Nat
  | 0, p => (0, p)
  | fuel + 1, p =>
    let p' := asr32 p
    if p' % 2 = 1 then (1, p')
    else
      let r := strip_tzeros fuel p'
      (r.1 + 1, r.2)

/-- The refill loop
(`while (tzeros--) isample = ((unsigned int) isample << 1) + ((frandom () > 0.5) ? 1 : 0);`),
shifting random low bits back in, modulo `2 ^ 32`. -/
def refill_bits (s : Nat) (p : Nat) : Nat → Nat × Nat
  | 0 => (s, p)
  | t + 1 =>
    refill_bits (frandom_seed s) ((p <<< 1) % 4294967296 +
      (if (1 : ℚ) / 2 < frandom_val s then 1 else 0)) t

/-- One sample of `float_to_32bit_integer_samples`: the saturating clamp
(with the source's literal `imin = 0x8000000 = 134217728` and
`imax = 0x7fffffff`), `floor (sample * 2147483648.0)` quantization of
interior values, and the random back-fill of trailing zero bits of a
nonzero even result.  Returns the updated PRNG seed and the stored
`int32_t` value. -/
def float_to_32bit_integer_sample (s : Nat) (x : ℚ) : Nat × Int :=
  let isample : Int :=
    if 1 ≤ x then 2147483647
    else if x ≤ -1 then 134217728
    else Int.floor (x * 2147483648)
  let p := int32_pattern isample
  if p ≠ 0 ∧ p % 2 = 0 then
    let r := strip_tzeros 32 p
    let r2 := refill_bits s r.2 r.1
    (r2.1, int32_of_pattern r2.2)
  else (s, int32_of_pattern p)

/-! ### Sample codec adapter: store_samples

`store_samples` dispatches on the qmode flags to one of four per-sample
serializers.  A `QMode` holds the four flags the dispatch inspects
(`QMODE_BIG_ENDIAN`, `QMODE_UNSIGNED_WORDS`, `QMODE_SIGNED_BYTES`,
`QMODE_DSD_AUDIO`).  `byte_of p k` is byte `k` of a 32-bit
two's-complement pattern; `(unsigned char) (temp >> 8 * k)` on the signed
`temp` extracts exactly those pattern bits, since an arithmetic shift
leaves the bits below position 32 unchanged. -/

structure QMode where
  bigEndian : Bool
  unsignedWords : Bool
  signedBytes : Bool
  dsdAudio : Bool
deriving DecidableEq, Repr

def byte_of (p k : Nat) : Nat := (p >>> (8 * k)) % 256

def store_little_endian_unsigned_sample (v : Int) : Nat → List Nat
  | 1 => [byte_of (int32_pattern (v + 128)) 0]
  | 2 => [byte_of (int32_pattern (v + 32768)) 0, byte_of (int32_pattern (v + 32768)) 1]
  | 3 => [byte_of (int32_pattern (v + 8388608)) 0, byte_of (int32_pattern (v + 8388608)) 1,
      byte_of (int32_pattern (v + 8388608)) 2]
  | 4 => [byte_of (int32_pattern (v + 2147483648)) 0, byte_of (int32_pattern (v + 2147483648)) 1,
      byte_of (int32_pattern (v + 2147483648)) 2, byte_of (int32_pattern (v + 2147483648)) 3]
  | _ => []

def store_little_endian_signed_sample (v : Int) : Nat → List Nat
  | 1 => [byte_of (int32_pattern v) 0]
  | 2 => [byte_of (int32_pattern v) 0, byte_of (int32_pattern v) 1]
  | 3 => [byte_of (int32_pattern v) 0, byte_of (int32_pattern v) 1, byte_of (int32_pattern v) 2]
  | 4 => [byte_of (int32_pattern v) 0, byte_of (int32_pattern v) 1, byte_of (int32_pattern v) 2,
      byte_of (int32_pattern v) 3]
  | _ => []

def store_big_endian_unsigned_sample (v : Int) : Nat → List Nat
  | 1 => [byte_of (int32_pattern (v + 128)) 0]
  | 2 => [byte_of (int32_pattern (v + 32768)) 1, byte_of (int32_pattern (v + 32768)) 0]
  | 3 => [byte_of (int32_pattern (v + 8388608)) 2, byte_of (int32_pattern (v + 8388608)) 1,
      byte_of (int32_pattern (v + 8388608)) 0]
  | 4 => [byte_of (int32_pattern (v + 2147483648)) 3, byte_of (int32_pattern (v + 2147483648)) 2,
      byte_of (int32_pattern (v + 2147483648)) 1, byte_of (int32_pattern (v + 2147483648)) 0]
  | _ => []

def store_big_endian_signed_sample (v : Int) : Nat → List Nat
  | 1 => [byte_of (int32_pattern v) 0]
  | 2 => [byte_of (int32_pattern v) 1, byte_of (int32_pattern v) 0]
  | 3 => [byte_of (int32_pattern v) 2, byte_of (int32_pattern v) 1, byte_of (int32_pattern v) 0]
  | 4 => [byte_of (int32_pattern v) 3, byte_of (int32_pattern v) 2, byte_of (int32_pattern v) 1,
      byte_of (int32_pattern v) 0]
  | _ => []

/-- The `store_samples` dispatch, per sample: big-endian first, then the
unsigned/signed choice; on the little-endian path byte-sized samples
default to unsigned only when neither `QMODE_SIGNED_BYTES` nor
`QMODE_DSD_AUDIO` is set, on the big-endian path only
`QMODE_SIGNED_BYTES` is consulted. -/
def store_sample (q : QMode) (bps : Nat) (v : Int) : List Nat :=
  if q.bigEndian then
    if q.unsignedWords || (bps == 1 && !q.signedBytes) then
      store_big_endian_unsigned_sample v bps
    else store_big_endian_signed_sample v bps
  else if q.unsignedWords || (bps == 1 && !(q.signedBytes || q.dsdAudio)) then
    store_little_endian_unsigned_sample v bps
  else store_little_endian_signed_sample v bps

/-- The unsigned-selection condition exactly as the dispatch evaluates it. -/
def unsigned_selected (q : QMode) (bps : Nat) : Bool :=
  if q.bigEndian then q.unsignedWords || (bps == 1 && !q.signedBytes)
  else q.unsignedWords || (bps == 1 && !(q.signedBytes || q.dsdAudio))

/-- The unsigned-selection condition as the claim words it: explicitly via
qmode, or by default when bps is 1 and signed bytes are not requested
(no mention of the DSD flag). -/
def unsigned_selected_claimed (q : QMode) (bps : Nat) : Bool :=
  q.unsignedWords || (bps == 1 && !q.signedBytes)

/-- Half the representable range for 1-4 bytes per sample, the bias
constants named by the specification (0x80, 0x8000, 0x800000,
0x80000000). -/
def spec_half_range (bps : Nat) : Int :=
  if bps = 1 then 128 else if bps = 2 then 32768
  else if bps = 3 then 8388608 else 2147483648

/-- The specification's description of the serialized bytes: the low
`bps` bytes of the (possibly bias-adjusted) 32-bit value, in the selected
byte order. -/
def store_bytes_described (unsigned bigEndian : Bool) (bps : Nat) (v : Int) : List Nat :=
  let bias : Int := if unsigned then spec_half_range bps else 0
  let p := int32_pattern (v + bias)
  let le := (List.range bps).map (fun k => byte_of p k)
  if bigEndian then le.reverse else le

/-! ### Streaming channel: trace-level model for the FIFO property

A micro-step semantics for one producer and one consumer interleaving on
a buffered channel.  `pend` holds bytes a `write_block` call has accepted
(its `bytes_written` update happens at call entry) but not yet copied
into the ring — the producer sits inside the copy loop, transferring
wrap-safe chunks as space allows and waiting on `cond_read` otherwise.
`out` is the net byte stream delivered to the consumer; a pushback of the
most recently delivered byte un-reads it (moves it from `out` into the
pushback cell), which is how the decoder uses `push_back_byte`.  The
ring holds at most `cap - 1` bytes (`bytes_available = tail - head - 1`
modulo the capacity).  Fuzzing is disabled (`fuzz_period == 0`), so
writes transfer their bytes unchanged. -/

structure ChState where
  cap : Nat
  written : List Nat
  pend : List Nat
  ring : List Nat
  pb : Nat
  out : List Nat
deriving DecidableEq, Repr

def pbList (pb : Nat) : List Nat := if pb = 0 then [] else [pb]

/-- The byte stream the channel still owes the consumer, ahead of what it
already delivered: pushback cell first, then ring contents, then bytes
pending inside the producer's copy loop. -/
def chContent (s : ChState) : List Nat := s.out ++ pbList s.pb ++ s.ring ++ s.pend

def initChState (cap : Nat) : ChState := ⟨cap, [], [], [], 0, []⟩

inductive ChStep : ChState → ChState → Prop
  | write (s : ChState) (bs : List Nat) :
      1 ≤ s.cap → s.pend = [] → bs ≠ [] →
      ChStep s { s with written := s.written ++ bs, pend := s.pend ++ bs }
  | copy (s : ChState) (k : Nat) :
      0 < k → k ≤ s.pend.length → s.ring.length + k + 1 ≤ s.cap →
      ChStep s { s with ring := s.ring ++ s.pend.take k, pend := s.pend.drop k }
  | readPB (s : ChState) :
      s.pb ≠ 0 →
      ChStep s { s with out := s.out ++ [s.pb], pb := 0 }
  | readRing (s : ChState) (k : Nat) :
      s.pb = 0 → 0 < k → k ≤ s.ring.length →
      ChStep s { s with out := s.out ++ s.ring.take k, ring := s.ring.drop k }
  | pushback (s : ChState) (b : Nat) (rest : List Nat) :
      s.pb = 0 → b ≠ 0 → s.out = rest ++ [b] →
      ChStep s { s with pb := b, out := rest }

lemma chStep_preserves {s t : ChState} (h : ChStep s t)
    (hInv : chContent s = s.written) : chContent t = t.written := by
  cases h with
  | write bs hcap hpend hbs =>
    dsimp only [chContent] at hInv ⊢
    rw [← hInv]
    simp [List.append_assoc]
  | copy k hk hkp hcap =>
    dsimp only [chContent] at hInv ⊢
    rw [← hInv]
    simp [List.append_assoc]
  | readPB hpb =>
    dsimp only [chContent] at hInv ⊢
    rw [← hInv]
    simp [pbList, hpb, List.append_assoc]
  | readRing k hpb hk hkr =>
    dsimp only [chContent] at hInv ⊢
    rw [← hInv]
    simp [pbList, hpb, List.append_assoc]
  | pushback b rest hpb hb hout =>
    dsimp only [chContent] at hInv ⊢
    rw [← hInv]
    simp [pbList, hpb, hb, hout, List.append_assoc]

lemma chSteps_invariant {cap : Nat} {s : ChState}
    (h : Relation.ReflTransGen ChStep (initChState cap) s) :
    chContent s = s.written := by
  induction h with
  | refl => rfl
  | tail hab hbc ih => exact chStep_preserves hbc ih

/-! ### Claim theorems -/

lemma fuzz_toggle_loop_ne (initial : Nat) :
    ∀ (delta_bits s v : Nat), (fuzz_toggle_loop s delta_bits initial v).2 ≠ initial := by
  intro delta_bits
  induction delta_bits with
  | zero =>
    intro s v
    have h0 : ¬ (0 : Nat) < 0 := lt_irrefl 0
    by_cases hv : v = initial
    · have hne : v ^^^ (1 <<< toggle_bit s) ≠ initial := by
        intro hcontra
        exact xor_shift_ne v (toggle_bit s) (by rw [hcontra, hv])
      rw [fuzz_toggle_loop, dif_neg h0, dif_pos hv,
        fuzz_toggle_loop, dif_neg h0, dif_neg hne]
      exact hne
    · rw [fuzz_toggle_loop, dif_neg h0, dif_neg hv]
      exact hv
  | succ d ih =>
    intro s v
    rw [fuzz_toggle_loop, dif_pos (Nat.succ_pos d)]
    simpa using ih (frandom_seed s) (v ^^^ (1 <<< toggle_bit s))

/-- C7: every byte selected for corruption by fuzz_buffer ends the XOR
bit-toggle loop with a value different from its pre-corruption value,
for every PRNG seed and every drawn bit count (extra toggles run whenever
the random toggles would restore the original value). -/
theorem fuzz_toggle_changes_value (s delta_bits initial : Nat) :
    (fuzz_toggle_loop s delta_bits initial initial).2 ≠ initial :=
  fuzz_toggle_loop_ne initial delta_bits s initial

/-- C8: fuzz_buffer restores the global PRNG seed it saved on entry, so
the seed after the call equals the seed before it and every subsequent
chain of frandom draws is unaffected by whether the fuzz call occurred. -/
theorem fuzz_buffer_preserves_seed (s length fuzz_period : Nat) (data : List Nat) :
    (fuzz_buffer s data length fuzz_period).1 = s ∧
    ∀ n : Nat, frandom_seed^[n] ((fuzz_buffer s data length fuzz_period).1) =
      frandom_seed^[n] s :=
  ⟨rfl, fun _ => rfl⟩

/-- C10: the byte index fuzz_buffer draws for a corruption hit is always
strictly inside the buffer: `floor (frandom () * length)` is below
`length` already (the uniform draw is in `[0, 1)`), and the defensive
`if (index == length) index--` clamp keeps the final index at most
`length - 1`. -/
theorem fuzz_index_in_bounds (s length : Nat) (hL : 1 ≤ length) :
    fuzz_index s length < length := by
  have hnn : (0 : ℚ) ≤ frandom_val s * length :=
    mul_nonneg (frandom_val_nonneg s) (by positivity)
  have hpos : (0 : ℚ) < length := by exact_mod_cast hL
  have hlt : frandom_val s * length < length := by
    calc frandom_val s * (length : ℚ) < 1 * length :=
          mul_lt_mul_of_pos_right (frandom_val_lt_one s) hpos
      _ = length := one_mul _
  have hfl : Int.floor (frandom_val s * (length : ℚ)) < (length : ℤ) := by
    rw [Int.floor_lt]
    exact_mod_cast hlt
  have hfl0 : 0 ≤ Int.floor (frandom_val s * (length : ℚ)) := Int.floor_nonneg.mpr hnn
  have hidx : (Int.floor (frandom_val s * (length : ℚ))).toNat < length := by omega
  have hne : (Int.floor (frandom_val s * (length : ℚ))).toNat ≠ length := by omega
  simp only [fuzz_index]
  rw [if_neg hne]
  exact hidx

/-- C10 witness: a concrete seed and length. -/
theorem fuzz_index_in_bounds_witness :
    1 ≤ 10 ∧ fuzz_index 3141592653589793 10 < 10 :=
  ⟨by decide, fuzz_index_in_bounds 3141592653589793 10 (by decide)⟩

/-- C1 (amended): in the VERIFY phase of run_test, any verification
mismatch (nonzero decoder error count, decoded sample count different
from the encoded count, or — in a lossless configuration — differing
hashes) yields the failing status `num_errors + 1` (nonzero) when fault
injection is inactive; when fault injection is active (`fuzz_period`
nonzero) every such mismatch yields status 0, the diagnostics are only
printed — including an incorrect sample count or a wrong hash with zero
reported decoder errors. -/
theorem run_test_verify_outcome (fuzz_period num_errors sample_count total_encoded_samples : Nat)
    (lossless md5_mismatch : Bool)
    (hm : num_errors ≠ 0 ∨ sample_count ≠ total_encoded_samples ∨
      (lossless = true ∧ md5_mismatch = true)) :
    (fuzz_period = 0 →
      verify_status fuzz_period num_errors sample_count total_encoded_samples lossless md5_mismatch
        = num_errors + 1 ∧
      verify_status fuzz_period num_errors sample_count total_encoded_samples lossless md5_mismatch
        ≠ 0) ∧
    (fuzz_period ≠ 0 →
      verify_status fuzz_period num_errors sample_count total_encoded_samples lossless md5_mismatch
        = 0) := by
  unfold verify_status
  rw [if_pos hm]
  constructor
  · intro h0
    rw [if_neg (by omega)]
    exact ⟨rfl, Nat.succ_ne_zero _⟩
  · intro hne
    rw [if_pos hne]

/-- C1 counterexample to the claim as stated: with fault injection active
(`fuzz_period = 2000`), an incorrect sample count (5 decoded versus 10
encoded) with zero reported decoder errors yields status 0 (passing),
not a failing status — `return fuzz_period ? 0 : wv_decoder.num_errors + 1`
ignores the kind of mismatch. -/
theorem verify_fuzz_mismatch_passes :
    (5 : Nat) ≠ 10 ∧ (0 : Nat) = 0 ∧ verify_status 2000 0 5 10 true false = 0 := by
  refine ⟨by decide, rfl, ?_⟩
  rfl

/-- C1 witness for the amended theorem. -/
theorem run_test_verify_outcome_witness :
    ((1 : Nat) ≠ 0 ∨ (10 : Nat) ≠ 10 ∨ (true = true ∧ false = true)) ∧
    (((0 : Nat) = 0 →
      verify_status 0 1 10 10 true false = 1 + 1 ∧ verify_status 0 1 10 10 true false ≠ 0) ∧
     ((0 : Nat) ≠ 0 → verify_status 0 1 10 10 true false = 0)) :=
  ⟨Or.inl (by decide), run_test_verify_outcome 0 1 10 10 true false (Or.inl (by decide))⟩

lemma refill_bits_bounds :
    ∀ (t s p : Nat), (p + 1) * 2 ^ t ≤ 4294967296 →
      p * 2 ^ t ≤ (refill_bits s p t).2 ∧ (refill_bits s p t).2 < (p + 1) * 2 ^ t := by
  intro t
  induction t with
  | zero => intro s p hle; simp [refill_bits]
  | succ t ih =>
    intro s p hle
    rw [refill_bits]
    have h2p : (p <<< 1) = 2 * p := by rw [Nat.shiftLeft_eq]; ring
    have hsmall : 2 * p < 4294967296 := by
      have h1 : 2 ^ (t + 1) ≥ 2 := Nat.one_lt_two_pow (by omega)
      nlinarith [Nat.one_le_two_pow (n := t + 1)]
    have hmod : (p <<< 1) % 4294967296 = 2 * p := by
      rw [h2p, Nat.mod_eq_of_lt hsmall]
    set b : Nat := if (1 : ℚ) / 2 < frandom_val s then 1 else 0 with hb
    have hb1 : b ≤ 1 := by
      rw [hb]
      split <;> omega
    have hnext : (2 * p + b + 1) * 2 ^ t ≤ 4294967296 := by
      have : (2 * p + b + 1) * 2 ^ t ≤ (2 * p + 2) * 2 ^ t := by
        apply Nat.mul_le_mul_right
        omega
      calc (2 * p + b + 1) * 2 ^ t ≤ (2 * p + 2) * 2 ^ t := this
        _ = (p + 1) * 2 ^ (t + 1) := by ring
        _ ≤ 4294967296 := hle
    have := ih (frandom_seed s) ((p <<< 1) % 4294967296 + b) (by rw [hmod]; exact hnext)
    rw [hmod] at this
    rw [hmod]
    constructor
    · calc p * 2 ^ (t + 1) = 2 * p * 2 ^ t := by ring
        _ ≤ (2 * p + b) * 2 ^ t := Nat.mul_le_mul_right _ (by omega)
        _ ≤ (refill_bits (frandom_seed s) (2 * p + b) t).2 := this.1
    · calc (refill_bits (frandom_seed s) (2 * p + b) t).2 < (2 * p + b + 1) * 2 ^ t := this.2
        _ ≤ (2 * p + 2) * 2 ^ t := Nat.mul_le_mul_right _ (by omega)
        _ = (p + 1) * 2 ^ (t + 1) := by ring

/-- C3: the (buggy) 32-bit float-as-integer quantizer at any sample value
of -1.0, for every PRNG seed.  The source initializes `imin = 0x8000000`
(134217728 = 2^27, one zero digit short of `0x80000000`), so a sample at
or below -1.0 is "clamped" to a positive value whose 27 trailing zero
bits are then back-filled with random bits; the stored result always lies
in [2^27, 2^28) and in particular is never the minimum 32-bit signed
integer -2147483648 that the claim (and the symmetric intent of
`imax = 0x7fffffff`, matching `imin = -(1 << (bits - 1))` in the other
quantizers) requires. -/
theorem float_to_32bit_min_clamp_bug (s : Nat) :
    134217728 ≤ (float_to_32bit_integer_sample s (-1)).2 ∧
    (float_to_32bit_integer_sample s (-1)).2 < 268435456 ∧
    (float_to_32bit_integer_sample s (-1)).2 ≠ -2147483648 := by
  have hcl : ¬ ((1 : ℚ) ≤ -1) := by norm_num
  have hcl2 : ((-1 : ℚ) ≤ -1) := le_refl _
  have hpat : int32_pattern 134217728 = 134217728 := by decide
  have hstrip : strip_tzeros 32 134217728 = (27, 1) := by decide
  have hbounds := refill_bits_bounds 27 s 1 (by norm_num)
  have hres : (float_to_32bit_integer_sample s (-1)).2 =
      int32_of_pattern (refill_bits s 1 27).2 := by
    simp only [float_to_32bit_integer_sample, hcl, if_false, hcl2, if_true, hpat, hstrip]
    norm_num
  rw [hres]
  have hlow : 134217728 ≤ (refill_bits s 1 27).2 := by
    have := hbounds.1
    norm_num at this
    exact this
  have hhigh : (refill_bits s 1 27).2 < 268435456 := by
    have := hbounds.2
    norm_num at this
    exact this
  have hlt : (refill_bits s 1 27).2 < 2147483648 := by omega
  rw [int32_of_pattern, if_pos hlt]
  refine ⟨by exact_mod_cast hlow, by exact_mod_cast hhigh, ?_⟩
  have : (0 : Int) ≤ ((refill_bits s 1 27).2 : Int) := Int.natCast_nonneg _
  omega

/-- C5 (amended): pushing back a nonzero byte onto a channel with an
empty pushback cell stores it and returns it as the acceptance status;
the immediately following read of one byte delivers exactly that byte —
before any ring-buffer content, even with a non-empty ring — and while a
(nonzero) pushback is pending any further push_back_byte call returns
EOF (-1) and leaves the channel unchanged.  (The byte 0 is the exception
the claim misses: storing it leaves the cell logically empty.) -/
theorem push_back_nonzero_then_read (ws : SF) (b : Nat)
    (hpb : ws.push_back = 0) (hb : b ≠ 0) :
    push_back_byte_nb ws b = ({ ws with push_back := b }, (b : Int)) ∧
    read_bytes_nb { ws with push_back := b } 1 = some ([b], { ws with push_back := 0 }) ∧
    (∀ c : Nat, push_back_byte_nb { ws with push_back := b } c =
      ({ ws with push_back := b }, -1)) := by
  refine ⟨?_, ?_, ?_⟩
  · simp [push_back_byte_nb, hpb]
  · simp [read_bytes_nb, hb]
  · intro c
    simp [push_back_byte_nb, hb]

/-- C5 counterexample to the claim as stated, at byte value 0: the
pushback call "succeeds" (returns 0 = the byte), but because the
emptiness test is `if (!ws->push_back)` the cell stays logically empty
and the next 1-byte read returns the ring-buffer content (7), not the
pushed-back byte (0). -/
theorem push_back_zero_dropped :
    push_back_byte_nb ⟨10, 2, 0, 2, [7], 0, false, 0⟩ 0 =
      (⟨10, 2, 0, 2, [7], 0, false, 0⟩, 0) ∧
    read_bytes_nb ⟨10, 2, 0, 2, [7], 0, false, 0⟩ 1 =
      some ([7], ⟨10, 2, 1, 2, [], 0, false, 0⟩) ∧
    ([7] : List Nat) ≠ [0] := by
  refine ⟨rfl, ?_, by decide⟩
  rfl

/-- C5 witness: a concrete channel with a non-empty ring and the byte 9. -/
theorem push_back_nonzero_then_read_witness :
    ((⟨10, 2, 0, 2, [7, 8], 0, false, 0⟩ : SF).push_back = 0 ∧ (9 : Nat) ≠ 0) ∧
    (push_back_byte_nb ⟨10, 2, 0, 2, [7, 8], 0, false, 0⟩ 9 =
      ({ (⟨10, 2, 0, 2, [7, 8], 0, false, 0⟩ : SF) with push_back := 9 }, (9 : Int)) ∧
     read_bytes_nb { (⟨10, 2, 0, 2, [7, 8], 0, false, 0⟩ : SF) with push_back := 9 } 1 =
      some ([9], { (⟨10, 2, 0, 2, [7, 8], 0, false, 0⟩ : SF) with push_back := 0 }) ∧
     (∀ c : Nat, push_back_byte_nb
        { (⟨10, 2, 0, 2, [7, 8], 0, false, 0⟩ : SF) with push_back := 9 } c =
        ({ (⟨10, 2, 0, 2, [7, 8], 0, false, 0⟩ : SF) with push_back := 9 }, -1))) :=
  ⟨⟨rfl, by decide⟩, push_back_nonzero_then_read ⟨10, 2, 0, 2, [7, 8], 0, false, 0⟩ 9 rfl (by decide)⟩

/-- A sequence of write_block calls, failing out if any call blocks or
returns a status other than 1. -/
def write_calls (s : Nat) : SF → List (List Nat) → Option SF
  | ws, [] => some ws
  | ws, d :: ds =>
    match write_block_nb s ws d with
    | some (ws', r) => if r = 1 then write_calls s ws' ds else none
    | none => none

lemma write_block_nb_zero_cap (s : Nat) (ws : SF) (d : List Nat)
    (h0 : ws.buffer_size = 0) (hd : d ≠ []) :
    write_block_nb s ws d = some
      ({ ws with
          first_block_size :=
            if ws.first_block_size = 0 then d.length else ws.first_block_size
          bytes_written := ws.bytes_written + d.length }, 1) := by
  rw [write_block_nb, if_neg hd]
  exact if_pos h0

lemma write_calls_zero_cap (s : Nat) :
    ∀ (datas : List (List Nat)) (ws : SF),
      ws.buffer_size = 0 → (∀ d ∈ datas, d ≠ []) →
      ∃ ws' : SF, write_calls s ws datas = some ws' ∧
        ws'.buffer_size = 0 ∧ ws'.ring = ws.ring ∧ ws'.push_back = ws.push_back ∧
        ws'.done = ws.done ∧
        ws'.bytes_written = ws.bytes_written + (datas.map List.length).sum := by
  intro datas
  induction datas with
  | nil =>
    intro ws h0 hne
    exact ⟨ws, rfl, h0, rfl, rfl, rfl, by simp⟩
  | cons d ds ih =>
    intro ws h0 hne
    have hd : d ≠ [] := hne d (by simp)
    obtain ⟨ws', hcall, hbs, hring, hpb, hdone, hbw⟩ :=
      ih ({ ws with
          first_block_size :=
            if ws.first_block_size = 0 then d.length else ws.first_block_size
          bytes_written := ws.bytes_written + d.length }) h0
        (fun d' hd' => hne d' (by simp [hd']))
    refine ⟨ws', ?_, hbs, hring, hpb, hdone, ?_⟩
    · rw [write_calls, write_block_nb_zero_cap s ws d h0 hd]
      simpa using hcall
    · rw [hbw]
      simp [Nat.add_assoc]

/-- C4 (amended): a zero-capacity Streaming Channel accepts every
write_block call with valid (nonempty) data, returning success
immediately and never blocking; the data is discarded (the ring stays
empty) while the byte counter accumulates the written lengths.  However,
flush_stream is a no-op on such a channel (`if (ws->buffer_base)` guards
the `done` flag), so the end-of-input flag is never set and a subsequent
read_bytes call blocks (returns no result in the sequential model)
instead of returning zero bytes. -/
theorem zero_capacity_stream_behavior (s fuzz_period : Nat) (datas : List (List Nat))
    (hne : ∀ d ∈ datas, d ≠ []) :
    ∃ ws' : SF, write_calls s (initialize_stream 0 fuzz_period) datas = some ws' ∧
      ws'.ring = [] ∧ ws'.bytes_written = (datas.map List.length).sum ∧
      flush_stream ws' = ws' ∧
      read_bytes_nb (flush_stream ws') 1 = none := by
  have hinit : initialize_stream 0 fuzz_period = ⟨0, 0, 0, 0, [], 0, false, 0⟩ := rfl
  obtain ⟨ws', hcall, hbs, hring, hpb, hdone, hbw⟩ :=
    write_calls_zero_cap s datas (initialize_stream 0 fuzz_period) (by rw [hinit]) hne
  rw [hinit] at hring hpb hdone hbw
  have hflush : flush_stream ws' = ws' := by
    rw [flush_stream, if_neg (by simp [hbs])]
  refine ⟨ws', hcall, hring, by simpa using hbw, hflush, ?_⟩
  rw [hflush, read_bytes_nb, if_neg (by norm_num)]
  simp [hring, hpb, hdone]

/-- C4 counterexample to the claim as stated: on the zero-capacity
channel, after one successful write and a flush_stream call, a 1-byte
read does not return zero bytes — it blocks, because flush_stream left
`done` unset. -/
theorem zero_capacity_flush_read_blocks :
    write_block_nb 7 (initialize_stream 0 0) [1, 2, 3] =
      some (⟨0, 3, 0, 3, [], 0, false, 0⟩, 1) ∧
    read_bytes_nb (flush_stream ⟨0, 3, 0, 3, [], 0, false, 0⟩) 1 = none ∧
    (none : Option (List Nat × SF)) ≠
      some ([], flush_stream ⟨0, 3, 0, 3, [], 0, false, 0⟩) := by
  refine ⟨rfl, rfl, by simp⟩

/-- C4 witness for the amended theorem: two concrete writes. -/
theorem zero_capacity_stream_behavior_witness :
    (∀ d ∈ [[5], [6, 7]], d ≠ ([] : List Nat)) ∧
    (∃ ws' : SF, write_calls 7 (initialize_stream 0 0) [[5], [6, 7]] = some ws' ∧
      ws'.ring = [] ∧ ws'.bytes_written = ([[5], [6, 7]].map List.length).sum ∧
      flush_stream ws' = ws' ∧
      read_bytes_nb (flush_stream ws') 1 = none) :=
  ⟨by decide, zero_capacity_stream_behavior 7 0 [[5], [6, 7]] (by decide)⟩

lemma fuzz_hits_aux_spec (p L : Nat) (u : ℚ) :
    ∀ (fuel k : Nat), k < (L + 1) / 2 → (L + 1) / 2 - k ≤ fuel →
      (∀ j < k, hit_prob_sum p L (j + 1) < u) →
      fuzz_hits_aux p L u fuel (hit_prob_sum p L k) k ≤ (L + 1) / 2 ∧
      (∀ j < fuzz_hits_aux p L u fuel (hit_prob_sum p L k) k, hit_prob_sum p L (j + 1) < u) ∧
      (fuzz_hits_aux p L u fuel (hit_prob_sum p L k) k = (L + 1) / 2 ∨
        u ≤ hit_prob_sum p L (fuzz_hits_aux p L u fuel (hit_prob_sum p L k) k + 1)) := by
  intro fuel
  induction fuel with
  | zero =>
    intro k hk hfuel hprev
    exact absurd hfuel (by omega)
  | succ fuel ih =>
    intro k hk hfuel hprev
    have hsum : hit_prob_sum p L k + hit_probability p L k = hit_prob_sum p L (k + 1) :=
      (Finset.sum_range_succ _ k).symm
    rw [fuzz_hits_aux, hsum]
    by_cases hlt : hit_prob_sum p L (k + 1) < u
    · rw [if_pos hlt]
      have hstepped : ∀ j < k + 1, hit_prob_sum p L (j + 1) < u := by
        intro j hj
        rcases Nat.lt_succ_iff_lt_or_eq.mp hj with h | h
        · exact hprev j h
        · rw [h]; exact hlt
      by_cases hcap : k + 1 = (L + 1) / 2
      · rw [if_pos hcap]
        exact ⟨le_of_eq hcap, hstepped, Or.inl hcap⟩
      · rw [if_neg hcap]
        exact ih (k + 1) (by omega) (by omega) hstepped
    · rw [if_neg hlt]
      exact ⟨le_of_lt hk, hprev, Or.inr (not_lt.mp hlt)⟩

/-- C6: for every fuzz period at least 2 and buffer length at least 1,
fuzz_buffer's stopping rule fixes the hit count at the first k for which
the running sum `P(hits = 0) + ... + P(hits = k)` meets or exceeds the
drawn uniform variable u — every smaller count left the running sum below
u — except that the count is capped at `(L + 1) / 2 = ⌈L / 2⌉`, which it
never exceeds. -/
theorem fuzz_hit_count_stopping_rule (p L : Nat) (hp : 2 ≤ p) (hL : 1 ≤ L) (u : ℚ) :
    fuzz_num_hits p L u ≤ (L + 1) / 2 ∧
    (∀ j < fuzz_num_hits p L u, hit_prob_sum p L (j + 1) < u) ∧
    (fuzz_num_hits p L u = (L + 1) / 2 ∨
      u ≤ hit_prob_sum p L (fuzz_num_hits p L u + 1)) := by
  have h0 : hit_prob_sum p L 0 = 0 := by simp [hit_prob_sum]
  have hspec := fuzz_hits_aux_spec p L u ((L + 1) / 2 + 1) 0 (by omega) (by omega)
    (fun j hj => absurd hj (Nat.not_lt_zero j))
  rw [h0] at hspec
  exact hspec

/-- C6 witness: concrete period 2, length 4, uniform draw 1/2. -/
theorem fuzz_hit_count_stopping_rule_witness :
    (2 ≤ 2 ∧ 1 ≤ 4) ∧
    (fuzz_num_hits 2 4 (1 / 2) ≤ (4 + 1) / 2 ∧
     (∀ j < fuzz_num_hits 2 4 (1 / 2), hit_prob_sum 2 4 (j + 1) < 1 / 2) ∧
     (fuzz_num_hits 2 4 (1 / 2) = (4 + 1) / 2 ∨
       (1 : ℚ) / 2 ≤ hit_prob_sum 2 4 (fuzz_num_hits 2 4 (1 / 2) + 1))) :=
  ⟨⟨by decide, by decide⟩, fuzz_hit_count_stopping_rule 2 4 (by decide) (by decide) (1 / 2)⟩

/-- C9 (amended): for 1 to 4 bytes per sample, the store_samples dispatch
writes, for each input 32-bit sample, the low `bps` bytes of the
(possibly bias-adjusted) value in the selected byte order; the bias is
half the representable range (0x80, 0x8000, 0x800000, 0x80000000) exactly
when the unsigned encoding is selected — explicitly via qmode, or by
default when bps is 1, signed bytes are not requested and (on the
little-endian path) DSD audio is not flagged; otherwise no bias is
applied. -/
theorem store_samples_low_byte_serialization (q : QMode) (bps : Nat) (v : Int)
    (h1 : 1 ≤ bps) (h4 : bps ≤ 4) :
    store_sample q bps v =
      store_bytes_described (unsigned_selected q bps) q.bigEndian bps v := by
  rcases q with ⟨be, uw, sb, dsd⟩
  interval_cases bps <;> cases be <;> cases uw <;> cases sb <;> cases dsd <;>
    simp [store_sample, store_bytes_described, unsigned_selected, spec_half_range,
      store_little_endian_unsigned_sample, store_little_endian_signed_sample,
      store_big_endian_unsigned_sample, store_big_endian_signed_sample,
      List.range_succ, add_zero]

/-- C9 counterexample to the claim as stated: with `QMODE_DSD_AUDIO` set
(little-endian path, bps = 1, signed bytes not requested), the code picks
the signed store (no bias) and writes the sample 1 as the byte 1, while
the claim's unsigned-by-default rule would bias it to 0x81 = 129. -/
theorem store_samples_dsd_byte_counterexample :
    store_sample ⟨false, false, false, true⟩ 1 1 = [1] ∧
    unsigned_selected_claimed ⟨false, false, false, true⟩ 1 = true ∧
    store_bytes_described (unsigned_selected_claimed ⟨false, false, false, true⟩ 1)
      false 1 1 = [129] ∧
    ([1] : List Nat) ≠ [129] := by
  refine ⟨rfl, rfl, ?_, by decide⟩
  rfl

/-- C9 witness for the amended theorem: 2 bytes per sample, defaults. -/
theorem store_samples_low_byte_serialization_witness :
    (1 ≤ 2 ∧ 2 ≤ 4) ∧
    store_sample ⟨false, false, false, false⟩ 2 5 =
      store_bytes_described (unsigned_selected ⟨false, false, false, false⟩ 2)
        (⟨false, false, false, false⟩ : QMode).bigEndian 2 5 :=
  ⟨⟨by decide, by decide⟩,
    store_samples_low_byte_serialization ⟨false, false, false, false⟩ 2 5 (by decide) (by decide)⟩

/-- C2: for every Streaming Channel of capacity at least 1 with fuzzing
disabled, and every interleaved trace of producer steps (write_block
calls and their wrap-safe chunk copies, of arbitrary sizes) and consumer
steps (read_bytes deliveries of arbitrary sizes and pushback
interactions), once the channel has drained — no bytes pending in the
producer, an empty ring and no pending pushback — the net byte stream
delivered to the consumer is exactly the concatenation of the byte
streams written, in order; a pending pushed-back byte is delivered
before any remaining ring content (the `readRing` step requires the
pushback cell to be empty, exactly as the read loop drains `push_back`
first). -/
theorem streaming_channel_fifo (cap : Nat) (hcap : 1 ≤ cap) (s : ChState)
    (h : Relation.ReflTransGen ChStep (initChState cap) s)
    (hpend : s.pend = []) (hring : s.ring = []) (hpb : s.pb = 0) :
    s.out = s.written := by
  have hInv := chSteps_invariant h
  rw [chContent, hpend, hring, hpb] at hInv
  simpa [pbList] using hInv

/-- C2 witness: a concrete trace on a capacity-4 channel — write [1, 2],
copy both bytes into the ring, read them, push back the byte 2, read it
again — after which the delivered stream equals the written stream. -/
theorem streaming_channel_fifo_witness :
    (⟨4, [1, 2], [], [], 0, [1, 2]⟩ : ChState).out =
      (⟨4, [1, 2], [], [], 0, [1, 2]⟩ : ChState).written := by
  have h1 : ChStep (initChState 4) ⟨4, [1, 2], [1, 2], [], 0, []⟩ :=
    ChStep.write (initChState 4) [1, 2] (by decide) rfl (by decide)
  have h2 : ChStep (⟨4, [1, 2], [1, 2], [], 0, []⟩ : ChState) ⟨4, [1, 2], [], [1, 2], 0, []⟩ :=
    ChStep.copy ⟨4, [1, 2], [1, 2], [], 0, []⟩ 2 (by decide) (by decide) (by decide)
  have h3 : ChStep (⟨4, [1, 2], [], [1, 2], 0, []⟩ : ChState) ⟨4, [1, 2], [], [], 0, [1, 2]⟩ :=
    ChStep.readRing ⟨4, [1, 2], [], [1, 2], 0, []⟩ 2 rfl (by decide) (by decide)
  have h4 : ChStep (⟨4, [1, 2], [], [], 0, [1, 2]⟩ : ChState) ⟨4, [1, 2], [], [], 2, [1]⟩ :=
    ChStep.pushback ⟨4, [1, 2], [], [], 0, [1, 2]⟩ 2 [1] rfl (by decide) rfl
  have h5 : ChStep (⟨4, [1, 2], [], [], 2, [1]⟩ : ChState) ⟨4, [1, 2], [], [], 0, [1, 2]⟩ :=
    ChStep.readPB ⟨4, [1, 2], [], [], 2, [1]⟩ (by decide)
  exact streaming_channel_fifo 4 (by decide) _
    (Relation.ReflTransGen.tail
      (Relation.ReflTransGen.tail
        (Relation.ReflTransGen.tail
          (Relation.ReflTransGen.tail
            (Relation.ReflTransGen.tail Relation.ReflTransGen.refl h1) h2) h3) h4) h5)
    rfl rfl rfl
